import Mathlib

/-!
Shallow embedding of the d-ary max-heap in `src/main.c` and proofs about it.

The C heap is a fixed-capacity `int` array together with a current `size`
and a branching degree `d`.  We model the array as a `List Int` (reads use
`List.getD` with default `0`; every read performed by the verified
operations is in bounds under the stated hypotheses, matching the C code,
which never reads out of bounds in the modelled executions).  The C loops
(`dmaxHeapify`'s while loop and the sift-up loops of `insert` /
`increaseKey`) are embedded with an explicit iteration budget that provably
dominates the number of iterations the C loop performs, so all definitions
are structurally recursive and kernel-computable.  The process-terminating
error paths (`exit(EXIT_FAILURE)`) are embedded as `none`.
-/

namespace DHeap

/-- Constant `MAX_CAPACITY` from `src/main.c`. -/
def MAX_CAPACITY : Nat := 5000

/-- Constant `INT_MAX` from `<limits.h>`, the sentinel used by `delete`. -/
def INT_MAX : Int := 2147483647

/-- Array read, `heap->array[i]`. -/
def hget (a : List Int) (i : Nat) : Int := a.getD i 0

/-- The C function `swap(&a[i], &a[j])` from `src/main.c`. -/
def swapL (a : List Int) (i j : Nat) : List Int :=
  (a.set i (hget a j)).set j (hget a i)

/-- The C function `child(i, k, d) = d*i + k` from `src/main.c`. -/
def child (i k d : Nat) : Nat := d * i + k

/-- The C function `parent(i, d) = (i-1)/d` from `src/main.c`. -/
def parent (i d : Nat) : Nat := (i - 1) / d

@[simp] theorem child_def (i k d : Nat) : child i k d = d * i + k := rfl

@[simp] theorem parent_def (i d : Nat) : parent i d = (i - 1) / d := rfl

/-- The `for (j = 1; j <= d; ++j)` scan of `dmaxHeapify` that finds the
largest among position `i` and its in-range children.  `m` iterations
remain, `j` is the current child number, `b` is the current `largest`. -/
def scanAux (a : List Int) (size d i : Nat) : Nat → Nat → Nat → Nat
  | 0, _, b => b
  | m + 1, j, b =>
      scanAux a size d i m (j + 1)
        (if child i j d < size ∧ hget a b < hget a (child i j d)
         then child i j d else b)

/-- The value of `largest` computed by one pass of `dmaxHeapify`'s child
scan, starting from `largest = i` and `j = 1`. -/
def findLargest (a : List Int) (size d i : Nat) : Nat :=
  scanAux a size d i d 1 i

/-- The `while (1)` loop of `dmaxHeapify` with an explicit iteration
budget: each iteration either stops (`largest == i`) or swaps and descends
to the strictly larger index `largest`. -/
def heapifyAux (size d : Nat) : List Int → Nat → Nat → List Int
  | a, _, 0 => a
  | a, i, f + 1 =>
      if findLargest a size d i = i then a
      else heapifyAux size d (swapL a i (findLargest a size d i))
        (findLargest a size d i) f

/-- The C function `dmaxHeapify(heap, i)` from `src/main.c`, acting on the array: a budget
of `size` iterations always suffices (the loop index strictly increases and
stays below `size`; see `heapifyAux_congr`). -/
def dmaxHeapify (a : List Int) (size d i : Nat) : List Int :=
  heapifyAux size d a i size

/-- The sift-up loop shared by `insert` and `increaseKey`:
`while (i > 0 && a[parent(i,d)] < a[i]) { swap; i = parent(i,d); }`,
with an explicit iteration budget. -/
def siftUpAux (d : Nat) : List Int → Nat → Nat → List Int
  | a, _, 0 => a
  | a, i, f + 1 =>
      if 0 < i ∧ hget a (parent i d) < hget a i
      then siftUpAux d (swapL a i (parent i d)) (parent i d) f
      else a

/-- The sift-up loop starting at index `i`; a budget of `i` iterations
always suffices (the index strictly decreases; see `siftUpAux_congr`). -/
def siftUp (a : List Int) (d i : Nat) : List Int := siftUpAux d a i i

/-- The `Heap` struct of `src/main.c`. -/
structure Heap where
  array : List Int
  size : Nat
  d : Nat
deriving DecidableEq, Repr

/-- The C function `insert(heap, key)` from `src/main.c`; the `exit` on overflow becomes
`none`. -/
def insert (h : Heap) (key : Int) : Option Heap :=
  if h.size = MAX_CAPACITY then none
  else some ⟨siftUp (h.array.set h.size key) h.d h.size, h.size + 1, h.d⟩

/-- The C function `increaseKey(heap, i, key)` from `src/main.c`; the `exit` on
`key < array[i]` becomes `none`. -/
def increaseKey (h : Heap) (i : Nat) (key : Int) : Option Heap :=
  if key < hget h.array i then none
  else some ⟨siftUp (h.array.set i key) h.d i, h.size, h.d⟩

/-- The C function `heapExtractMax(heap)` from `src/main.c`; the `exit` on underflow
becomes `none`.  Returns the extracted maximum and the new heap. -/
def heapExtractMax (h : Heap) : Option (Int × Heap) :=
  if h.size < 1 then none
  else some (hget h.array 0,
    ⟨dmaxHeapify (h.array.set 0 (hget h.array (h.size - 1))) (h.size - 1) h.d 0,
     h.size - 1, h.d⟩)

/-- The `for (i = size/d - 1; i >= 0; i--)` loop of `buildMaxHeap`:
`buildIter size d a n` runs `dmaxHeapify` at indices `n-1, n-2, ..., 0`. -/
def buildIter (size d : Nat) : List Int → Nat → List Int
  | a, 0 => a
  | a, n + 1 => buildIter size d (dmaxHeapify a size d n) n

/-- The C function `buildMaxHeap(heap)` from `src/main.c`: heapifies indices
`size/d - 1` down to `0` (no iterations when `size/d == 0`, matching the
C loop whose signed counter starts at `-1` in that case). -/
def buildMaxHeap (h : Heap) : Heap :=
  ⟨buildIter h.size h.d h.array (h.size / h.d), h.size, h.d⟩

/-- The C function `delete(heap, index)` from `src/main.c`: bounds check, then
`increaseKey(heap, index, INT_MAX)` followed by `heapExtractMax`. -/
def delete (h : Heap) (index : Nat) : Option Heap :=
  if h.size ≤ index then none
  else (increaseKey h index INT_MAX).bind fun h2 =>
    (heapExtractMax h2).map Prod.snd

/-- Insert a list of keys one by one (left to right). -/
def insertAll : Heap → List Int → Option Heap
  | h, [] => some h
  | h, k :: ks =>
      match insert h k with
      | none => none
      | some h2 => insertAll h2 ks

/-- Call `heapExtractMax` `n` times, collecting the extracted values. -/
def extractN : Heap → Nat → List Int
  | _, 0 => []
  | h, n + 1 =>
      match heapExtractMax h with
      | none => []
      | some (m, h2) => m :: extractN h2 n

/-- The max-heap property from the spec: for every valid index `p`, every
child `c = d*p + k` (`1 ≤ k ≤ d`) with `c < size` satisfies
`a[c] ≤ a[p]`. -/
def heapProp (a : List Int) (size d : Nat) : Prop :=
  ∀ p, p < size → ∀ k, k ≤ d → 1 ≤ k → d * p + k < size →
    hget a (d * p + k) ≤ hget a p

instance heapProp.decidable (a : List Int) (size d : Nat) :
    Decidable (heapProp a size d) := by
  unfold heapProp; infer_instance

/-- The multiset of logically valid elements of a heap. -/
def validM (h : Heap) : Multiset Int := (h.array.take h.size : List Int)

/-! ### List-level lemmas about reads, writes, `take` and `drop` -/

theorem hget_set_self : ∀ (a : List Int) (i : Nat) (v : Int), i < a.length →
    hget (a.set i v) i = v
  | [], i, _, h => absurd h (by simp)
  | _ :: _, 0, _, _ => rfl
  | _ :: l, i + 1, v, h => hget_set_self l i v (by simpa using h)

theorem hget_set_of_ne : ∀ (a : List Int) (i j : Nat) (v : Int), i ≠ j →
    hget (a.set i v) j = hget a j
  | [], _, _, _, _ => rfl
  | _ :: _, 0, 0, _, hne => absurd rfl hne
  | _ :: _, 0, _ + 1, _, _ => rfl
  | _ :: _, _ + 1, 0, _, _ => rfl
  | _ :: l, i + 1, j + 1, v, hne =>
      hget_set_of_ne l i j v (fun hc => hne (by omega))

theorem length_swapL (a : List Int) (i j : Nat) :
    (swapL a i j).length = a.length := by
  simp [swapL]

theorem hget_swapL_left (a : List Int) (i j : Nat) (hi : i < a.length)
    (_hj : j < a.length) : hget (swapL a i j) i = hget a j := by
  unfold swapL
  rcases eq_or_ne j i with rfl | hne
  · exact hget_set_self _ _ _ (by simpa using hi)
  · rw [hget_set_of_ne _ _ _ _ hne, hget_set_self _ _ _ hi]

theorem hget_swapL_right (a : List Int) (i j : Nat) (hj : j < a.length) :
    hget (swapL a i j) j = hget a i := by
  unfold swapL
  exact hget_set_self _ _ _ (by simpa using hj)

theorem hget_swapL_of_ne (a : List Int) (i j m : Nat) (hmi : m ≠ i)
    (hmj : m ≠ j) : hget (swapL a i j) m = hget a m := by
  unfold swapL
  rw [hget_set_of_ne _ _ _ _ (fun hc => hmj hc.symm),
    hget_set_of_ne _ _ _ _ (fun hc => hmi hc.symm)]

theorem hget_take : ∀ (a : List Int) (n j : Nat), j < n →
    hget (a.take n) j = hget a j
  | [], _, _, _ => by simp
  | _ :: _, n + 1, 0, _ => rfl
  | _ :: l, n + 1, j + 1, h => hget_take l n j (by omega)

theorem take_set_comm : ∀ (a : List Int) (i : Nat) (v : Int) (n : Nat), i < n →
    (a.set i v).take n = (a.take n).set i v
  | [], _, _, _, _ => by simp
  | _ :: l, 0, v, n + 1, _ => by simp
  | x :: l, i + 1, v, n + 1, h => by
      simpa using take_set_comm l i v n (by omega)

theorem take_set_ge : ∀ (a : List Int) (i : Nat) (v : Int) (n : Nat), n ≤ i →
    (a.set i v).take n = a.take n
  | [], _, _, _, _ => by simp
  | _ :: _, _, _, 0, _ => by simp
  | x :: l, i + 1, v, n + 1, h => by
      simpa using take_set_ge l i v n (by omega)

theorem drop_set_lt : ∀ (a : List Int) (i : Nat) (v : Int) (n : Nat), i < n →
    (a.set i v).drop n = a.drop n
  | [], _, _, _, _ => by simp
  | _ :: l, 0, v, n + 1, _ => by simp
  | x :: l, i + 1, v, n + 1, h => by
      simpa using drop_set_lt l i v n (by omega)

theorem drop_swapL (a : List Int) (i j n : Nat) (hi : i < n) (hj : j < n) :
    (swapL a i j).drop n = a.drop n := by
  unfold swapL
  rw [drop_set_lt _ _ _ _ hj, drop_set_lt _ _ _ _ hi]

theorem take_succ_hget : ∀ (a : List Int) (n : Nat), n < a.length →
    a.take (n + 1) = a.take n ++ [hget a n]
  | [], _, h => absurd h (by simp)
  | x :: l, 0, _ => by simp [hget]
  | x :: l, n + 1, h => by
      have := take_succ_hget l n (by simpa using h)
      simp [List.take_succ_cons, this]
      rfl

theorem mem_take_hget : ∀ (a : List Int) (n : Nat) (x : Int), x ∈ a.take n →
    ∃ j, j < n ∧ j < a.length ∧ hget a j = x
  | [], _, _, hx => absurd hx (by simp)
  | y :: l, n + 1, x, hx => by
      rcases (by simpa using hx : x = y ∨ x ∈ l.take n) with rfl | hx2
      · exact ⟨0, by omega, by simp, rfl⟩
      · obtain ⟨j, hj1, hj2, hj3⟩ := mem_take_hget l n x hx2
        exact ⟨j + 1, by omega, by simpa using hj2, hj3⟩

theorem hget_mem_take : ∀ (a : List Int) (j n : Nat), j < n → j < a.length →
    hget a j ∈ a.take n
  | [], _, _, _, h => absurd h (by simp)
  | x :: l, 0, n + 1, _, _ => by simp [hget]
  | x :: l, j + 1, n + 1, h1, h2 => by
      have := hget_mem_take l j n (by omega) (by simpa using h2)
      simpa [hget] using Or.inr this

theorem set_hget_self : ∀ (a : List Int) (i : Nat), i < a.length →
    a.set i (hget a i) = a
  | [], _, h => absurd h (by simp)
  | _ :: _, 0, _ => rfl
  | x :: l, i + 1, h => by
      show x :: l.set i (hget l i) = x :: l
      rw [set_hget_self l i (by simpa using h)]

theorem multiset_set : ∀ (a : List Int) (i : Nat) (v : Int), i < a.length →
    ((a.set i v : List Int) : Multiset Int) + {hget a i} =
      (a : Multiset Int) + {v}
  | [], _, _, h => absurd h (by simp)
  | x :: l, 0, v, _ => by
      show (v ::ₘ (l : Multiset Int)) + {x} = (x ::ₘ (l : Multiset Int)) + {v}
      rw [← Multiset.singleton_add v, ← Multiset.singleton_add x]
      rw [add_right_comm, add_right_comm ({x} : Multiset Int)]
      rw [add_comm ({v} : Multiset Int) ({x} : Multiset Int)]
  | x :: l, i + 1, v, h => by
      have ih := multiset_set l i v (by simpa using h)
      show (x ::ₘ (l.set i v : Multiset Int)) + {hget l i} =
        (x ::ₘ (l : Multiset Int)) + {v}
      rw [Multiset.cons_add, Multiset.cons_add, ih]

theorem swapL_multiset (a : List Int) (i j : Nat) (hi : i < a.length)
    (hj : j < a.length) :
    ((swapL a i j : List Int) : Multiset Int) = (a : Multiset Int) := by
  have h1 := multiset_set (a.set i (hget a j)) j (hget a i) (by simpa using hj)
  have h2 := multiset_set a i (hget a j) hi
  have h3 : hget (a.set i (hget a j)) j = hget a j := by
    rcases eq_or_ne i j with rfl | hne
    · exact hget_set_self _ _ _ hi
    · exact hget_set_of_ne _ _ _ _ hne
  rw [h3] at h1
  have h4 : ((swapL a i j : List Int) : Multiset Int) + {hget a j}
      = (a : Multiset Int) + {hget a j} := by
    unfold swapL
    exact h1.trans h2
  exact add_right_cancel h4

theorem takeM_eq (l1 l2 : List Int) (n : Nat)
    (hm : (l1 : Multiset Int) = (l2 : Multiset Int))
    (hd : l1.drop n = l2.drop n) :
    ((l1.take n : List Int) : Multiset Int) = (l2.take n : List Int) := by
  have h1 : ((l1.take n : List Int) : Multiset Int) + (l1.drop n : List Int)
      = (l1 : Multiset Int) := by
    rw [Multiset.coe_add, List.take_append_drop]
  have h2 : ((l2.take n : List Int) : Multiset Int) + (l2.drop n : List Int)
      = (l2 : Multiset Int) := by
    rw [Multiset.coe_add, List.take_append_drop]
  have key : ((l1.take n : List Int) : Multiset Int) + (l1.drop n : List Int)
      = ((l2.take n : List Int) : Multiset Int) + (l1.drop n : List Int) := by
    rw [h1, hm, hd, h2]
  exact add_right_cancel key

/-! ### Index arithmetic of the d-ary tree encoding -/

theorem child_gt (i k d : Nat) (hk1 : 1 ≤ k) (hkd : k ≤ d) : i < d * i + k := by
  have h1 : i ≤ d * i := Nat.le_mul_of_pos_left i (by omega)
  omega

theorem parent_of_child (p k d : Nat) (hk1 : 1 ≤ k) (hkd : k ≤ d) :
    (d * p + k - 1) / d = p := by
  have h1 : d * p + k - 1 = k - 1 + d * p := by omega
  rw [h1, Nat.add_mul_div_left _ _ (by omega : 0 < d),
    Nat.div_eq_of_lt (by omega : k - 1 < d)]
  omega

theorem exists_child_decomp (i d : Nat) (hi : 1 ≤ i) (hd : 1 ≤ d) :
    ∃ k, 1 ≤ k ∧ k ≤ d ∧ i = d * ((i - 1) / d) + k := by
  have hmod : (i - 1) % d < d := Nat.mod_lt _ (by omega)
  have hdm := Nat.div_add_mod (i - 1) d
  exact ⟨(i - 1) % d + 1, by omega, by omega, by omega⟩

theorem parent_lt (i d : Nat) (hi : 1 ≤ i) : (i - 1) / d < i := by
  have h1 : (i - 1) / d ≤ i - 1 := Nat.div_le_self _ _
  omega

/-! ### The child scan of `dmaxHeapify` -/

theorem scanAux_cases (a : List Int) (size d i m : Nat) :
    ∀ (j b : Nat), 1 ≤ j → j + m ≤ d + 1 →
    (b = i ∨ (i < b ∧ b < size ∧ hget a i < hget a b ∧
       ∃ k0, 1 ≤ k0 ∧ k0 ≤ d ∧ b = d * i + k0)) →
    (scanAux a size d i m j b = i ∨
      (i < scanAux a size d i m j b ∧ scanAux a size d i m j b < size ∧
       hget a i < hget a (scanAux a size d i m j b) ∧
       ∃ k0, 1 ≤ k0 ∧ k0 ≤ d ∧ scanAux a size d i m j b = d * i + k0)) := by
  induction m with
  | zero => intro j b _ _ hb; exact hb
  | succ m ih =>
      intro j b hj hjm hb
      simp only [scanAux, child_def]
      apply ih (j + 1) _ (by omega) (by omega)
      by_cases hc : d * i + j < size ∧ hget a b < hget a (d * i + j)
      · rw [if_pos hc]
        refine Or.inr ⟨child_gt i j d hj (by omega), hc.1, ?_, j, hj, by omega, rfl⟩
        rcases hb with rfl | ⟨_, _, hlt, _⟩
        · exact hc.2
        · exact lt_trans hlt hc.2
      · rw [if_neg hc]; exact hb

theorem scanAux_dominates (a : List Int) (size d i m : Nat) :
    ∀ (j b : Nat),
      hget a b ≤ hget a (scanAux a size d i m j b) ∧
      (∀ k, j ≤ k → k < j + m → d * i + k < size →
        hget a (d * i + k) ≤ hget a (scanAux a size d i m j b)) := by
  induction m with
  | zero =>
      intro j b
      exact ⟨le_refl _, fun k h1 h2 _ => absurd h2 (by omega)⟩
  | succ m ih =>
      intro j b
      simp only [scanAux, child_def]
      obtain ⟨h1, h2⟩ :=
        ih (j + 1) (if d * i + j < size ∧ hget a b < hget a (d * i + j)
          then d * i + j else b)
      constructor
      · refine le_trans ?_ h1
        by_cases hc : d * i + j < size ∧ hget a b < hget a (d * i + j)
        · rw [if_pos hc]; exact le_of_lt hc.2
        · rw [if_neg hc]
      · intro k hk1 hk2 hk3
        rcases eq_or_lt_of_le hk1 with rfl | hklt
        · refine le_trans ?_ h1
          by_cases hc : d * i + j < size ∧ hget a b < hget a (d * i + j)
          · rw [if_pos hc]
          · rw [if_neg hc]
            rcases not_and_or.mp hc with hbad | hbad
            · exact absurd hk3 hbad
            · exact not_lt.mp hbad
        · exact h2 k (by omega) (by omega) hk3

theorem scanAux_leftmost (a : List Int) (size d i m : Nat) :
    ∀ (j b : Nat), 1 ≤ j →
      (∀ k, 1 ≤ k → k ≤ d → d * i + k < size → d * i + k < b →
        hget a (d * i + k) < hget a b) →
      (∀ k, 1 ≤ k → k < j → d * i + k < size →
        hget a (d * i + k) ≤ hget a b) →
      ∀ k, 1 ≤ k → k ≤ d → d * i + k < size →
        d * i + k < scanAux a size d i m j b →
        hget a (d * i + k) < hget a (scanAux a size d i m j b) := by
  induction m with
  | zero => intro j b _ hinv _; exact hinv
  | succ m ih =>
      intro j b hj hinv hmax
      simp only [scanAux, child_def]
      by_cases hc : d * i + j < size ∧ hget a b < hget a (d * i + j)
      · rw [if_pos hc]
        apply ih (j + 1) (d * i + j) (by omega)
        · intro k hk1 hkd hks hlt
          have hkj : k < j := by omega
          exact lt_of_le_of_lt (hmax k hk1 hkj hks) hc.2
        · intro k hk1 hkj hks
          rcases (by omega : k < j ∨ k = j) with hlt | rfl
          · exact le_of_lt (lt_of_le_of_lt (hmax k hk1 hlt hks) hc.2)
          · exact le_refl _
      · rw [if_neg hc]
        apply ih (j + 1) b (by omega) hinv
        intro k hk1 hkj hks
        rcases (by omega : k < j ∨ k = j) with hlt | rfl
        · exact hmax k hk1 hlt hks
        · rcases not_and_or.mp hc with hbad | hbad
          · exact absurd hks hbad
          · exact not_lt.mp hbad

theorem findLargest_cases (a : List Int) (size d i : Nat) :
    findLargest a size d i = i ∨
      (i < findLargest a size d i ∧ findLargest a size d i < size ∧
       hget a i < hget a (findLargest a size d i) ∧
       ∃ k0, 1 ≤ k0 ∧ k0 ≤ d ∧ findLargest a size d i = d * i + k0) :=
  scanAux_cases a size d i d 1 i (by omega) (by omega) (Or.inl rfl)

theorem findLargest_dominates (a : List Int) (size d i : Nat) :
    hget a i ≤ hget a (findLargest a size d i) ∧
    ∀ k, 1 ≤ k → k ≤ d → d * i + k < size →
      hget a (d * i + k) ≤ hget a (findLargest a size d i) := by
  obtain ⟨h1, h2⟩ := scanAux_dominates a size d i d 1 i
  exact ⟨h1, fun k hk1 hkd hks => h2 k hk1 (by omega) hks⟩

theorem findLargest_leftmost (a : List Int) (size d i : Nat) :
    ∀ k, 1 ≤ k → k ≤ d → d * i + k < size →
      d * i + k < findLargest a size d i →
      hget a (d * i + k) < hget a (findLargest a size d i) := by
  apply scanAux_leftmost a size d i d 1 i (by omega)
  · intro k hk1 hkd hks hlt
    have h1 := child_gt i k d hk1 hkd
    exact absurd hlt (by omega)
  · intro k hk1 hkj _
    exact absurd hkj (by omega)

/-! ### Correctness of `dmaxHeapify` -/

/-- The loop invariant of `dmaxHeapify`: the heap property holds at every
position other than the current index `i`. -/
def heapPropExcept (a : List Int) (size d i : Nat) : Prop :=
  ∀ p, p < size → p ≠ i → ∀ k, k ≤ d → 1 ≤ k → d * p + k < size →
    hget a (d * p + k) ≤ hget a p

/-- The second half of the `dmaxHeapify` loop invariant: if the current
index `i` is not the root, its parent already dominates all of `i`'s
in-range children. -/
def gpCond (a : List Int) (size d i : Nat) : Prop :=
  i ≠ 0 → ∀ k, k ≤ d → 1 ≤ k → d * i + k < size →
    hget a (d * i + k) ≤ hget a ((i - 1) / d)

theorem heapifyAux_length (size d : Nat) :
    ∀ (f : Nat) (a : List Int) (i : Nat),
      (heapifyAux size d a i f).length = a.length := by
  intro f
  induction f with
  | zero => intro a i; rfl
  | succ f ih =>
      intro a i
      simp only [heapifyAux]
      by_cases hL : findLargest a size d i = i
      · rw [if_pos hL]
      · rw [if_neg hL, ih, length_swapL]

theorem heapifyAux_multiset (size d : Nat) :
    ∀ (f : Nat) (a : List Int) (i : Nat), size ≤ a.length →
      ((heapifyAux size d a i f : List Int) : Multiset Int) =
        (a : Multiset Int) := by
  intro f
  induction f with
  | zero => intro a i _; rfl
  | succ f ih =>
      intro a i hlen
      simp only [heapifyAux]
      rcases findLargest_cases a size d i with hL | ⟨h1, h2, _, _⟩
      · rw [if_pos hL]
      · have hLi : findLargest a size d i ≠ i := by omega
        rw [if_neg hLi]
        have hil : i < a.length := by omega
        have hLl : findLargest a size d i < a.length := by omega
        rw [ih _ _ (by rw [length_swapL]; exact hlen)]
        exact swapL_multiset a i _ hil hLl

theorem heapifyAux_drop (size d : Nat) :
    ∀ (f : Nat) (a : List Int) (i : Nat),
      (heapifyAux size d a i f).drop size = a.drop size := by
  intro f
  induction f with
  | zero => intro a i; rfl
  | succ f ih =>
      intro a i
      simp only [heapifyAux]
      rcases findLargest_cases a size d i with hL | ⟨h1, h2, _, _⟩
      · rw [if_pos hL]
      · have hLi : findLargest a size d i ≠ i := by omega
        rw [if_neg hLi, ih]
        exact drop_swapL a i _ size (by omega) h2

theorem heapifyAux_heapProp (size d : Nat) :
    ∀ (f : Nat) (a : List Int) (i : Nat), size ≤ a.length → size - i ≤ f →
      heapPropExcept a size d i → gpCond a size d i →
      heapProp (heapifyAux size d a i f) size d := by
  intro f
  induction f with
  | zero =>
      intro a i _ hf hex _ p hp k hkd hk1 hc
      exact hex p hp (by omega) k hkd hk1 hc
  | succ f ih =>
      intro a i hlen hf hex hgp
      simp only [heapifyAux]
      rcases findLargest_cases a size d i with hL |
        ⟨hiL, hLs, hval, k0, hk01, hk0d, hLc⟩
      · rw [if_pos hL]
        intro p hp k hkd hk1 hc
        rcases eq_or_ne p i with rfl | hpi
        · have h1 := (findLargest_dominates a size d p).2 k hk1 hkd hc
          rwa [hL] at h1
        · exact hex p hp hpi k hkd hk1 hc
      · have hLi : findLargest a size d i ≠ i := by omega
        rw [if_neg hLi, hLc]
        rw [hLc] at hiL hLs hval
        have hdom := (findLargest_dominates a size d i).2
        rw [hLc] at hdom
        have hil : i < a.length := by omega
        have hc0l : d * i + k0 < a.length := by omega
        have sw_i : hget (swapL a i (d * i + k0)) i = hget a (d * i + k0) :=
          hget_swapL_left a i _ hil hc0l
        have sw_c0 : hget (swapL a i (d * i + k0)) (d * i + k0) = hget a i :=
          hget_swapL_right a i _ hc0l
        have sw_o : ∀ m, m ≠ i → m ≠ d * i + k0 →
            hget (swapL a i (d * i + k0)) m = hget a m :=
          fun m h1 h2 => hget_swapL_of_ne a i _ m h1 h2
        apply ih _ (d * i + k0) (by rw [length_swapL]; exact hlen) (by omega)
        · -- the heap property holds everywhere except at the new index
          intro p hp hpc0 k hkd hk1 hcs
          rcases eq_or_ne p i with rfl | hpi
          · rcases eq_or_ne (d * p + k) (d * p + k0) with hck | hck
            · rw [hck, sw_c0, sw_i]
              exact le_of_lt hval
            · have hci : d * p + k ≠ p := by
                have h1 := child_gt p k d hk1 hkd; omega
              rw [sw_o _ hci hck, sw_i]
              exact hdom k hk1 hkd hcs
          · rcases eq_or_ne (d * p + k) i with hci | hci
            · have hpar : (i - 1) / d = p := by
                rw [← hci]; exact parent_of_child p k d hk1 hkd
              have hine : i ≠ 0 := by
                have h1 := child_gt p k d hk1 hkd; omega
              have h1 := hgp hine k0 hk0d hk01 hLs
              rw [hpar] at h1
              rw [hci, sw_i, sw_o p hpi hpc0]
              exact h1
            · rcases eq_or_ne (d * p + k) (d * i + k0) with hcc | hcc
              · exfalso
                have h1 := parent_of_child p k d hk1 hkd
                have h2 := parent_of_child i k0 d hk01 hk0d
                rw [hcc] at h1
                omega
              · rw [sw_o _ hci hcc, sw_o p hpi hpc0]
                exact hex p hp hpi k hkd hk1 hcs
        · -- the parent of the new index dominates its in-range children
          intro _ k hkd hk1 hcs
          have hpar : (d * i + k0 - 1) / d = i := parent_of_child i k0 d hk01 hk0d
          rw [hpar, sw_i]
          have hgt := child_gt (d * i + k0) k d hk1 hkd
          have hgc : d * (d * i + k0) + k ≠ i := by omega
          have hgc2 : d * (d * i + k0) + k ≠ d * i + k0 := by omega
          rw [sw_o _ hgc hgc2]
          exact hex (d * i + k0) hLs (by omega) k hkd hk1 hcs

theorem dmaxHeapify_heapProp (a : List Int) (size d i : Nat)
    (hlen : size ≤ a.length) (hex : heapPropExcept a size d i)
    (hgp : gpCond a size d i) : heapProp (dmaxHeapify a size d i) size d :=
  heapifyAux_heapProp size d size a i hlen (by omega) hex hgp

theorem dmaxHeapify_length (a : List Int) (size d i : Nat) :
    (dmaxHeapify a size d i).length = a.length :=
  heapifyAux_length size d size a i

theorem dmaxHeapify_take (a : List Int) (size d i : Nat)
    (hlen : size ≤ a.length) :
    (((dmaxHeapify a size d i).take size : List Int) : Multiset Int) =
      (a.take size : List Int) :=
  takeM_eq _ _ _ (heapifyAux_multiset size d size a i hlen)
    (heapifyAux_drop size d size a i)

theorem heapifyAux_congr (size d : Nat) :
    ∀ (f g : Nat) (a : List Int) (i : Nat), size - i ≤ f → size - i ≤ g →
      heapifyAux size d a i f = heapifyAux size d a i g := by
  intro f
  induction f with
  | zero =>
      intro g a i hf _
      have hL : findLargest a size d i = i := by
        rcases findLargest_cases a size d i with h | ⟨h1, h2, _, _⟩
        · exact h
        · omega
      cases g with
      | zero => rfl
      | succ g => simp only [heapifyAux]; rw [if_pos hL]
  | succ f ih =>
      intro g a i hf hg
      cases g with
      | zero =>
          have hL : findLargest a size d i = i := by
            rcases findLargest_cases a size d i with h | ⟨h1, h2, _, _⟩
            · exact h
            · omega
          simp only [heapifyAux]; rw [if_pos hL]
      | succ g =>
          simp only [heapifyAux]
          rcases findLargest_cases a size d i with hL | ⟨h1, h2, _, _⟩
          · rw [if_pos hL, if_pos hL]
          · have hLi : findLargest a size d i ≠ i := by omega
            rw [if_neg hLi, if_neg hLi]
            exact ih g (swapL a i (findLargest a size d i))
              (findLargest a size d i) (by omega) (by omega)

theorem dmaxHeapify_step (a : List Int) (size d i : Nat)
    (hLi : findLargest a size d i ≠ i) :
    dmaxHeapify a size d i =
      dmaxHeapify (swapL a i (findLargest a size d i)) size d
        (findLargest a size d i) := by
  unfold dmaxHeapify
  rw [heapifyAux_congr size d size (size + 1) a i (by omega) (by omega)]
  show (if findLargest a size d i = i then a
    else heapifyAux size d (swapL a i (findLargest a size d i))
      (findLargest a size d i) size) = _
  rw [if_neg hLi]

/-! ### Correctness of the sift-up loop -/

/-- The sift-up loop invariant: the heap property holds at every edge
except possibly the edge from `i`'s parent down to `i`, and (when `i` is
not the root) `i`'s parent already dominates all of `i`'s in-range
children. -/
def upInv (a : List Int) (size d i : Nat) : Prop :=
  (∀ p, p < size → ∀ k, k ≤ d → 1 ≤ k → d * p + k < size →
    ¬(p = (i - 1) / d ∧ d * p + k = i) → hget a (d * p + k) ≤ hget a p) ∧
  (i ≠ 0 → ∀ k, k ≤ d → 1 ≤ k → d * i + k < size →
    hget a (d * i + k) ≤ hget a ((i - 1) / d))

theorem siftUpAux_length (d : Nat) :
    ∀ (f : Nat) (a : List Int) (i : Nat),
      (siftUpAux d a i f).length = a.length := by
  intro f
  induction f with
  | zero => intro a i; rfl
  | succ f ih =>
      intro a i
      simp only [siftUpAux]
      by_cases hc : 0 < i ∧ hget a (parent i d) < hget a i
      · rw [if_pos hc, ih, length_swapL]
      · rw [if_neg hc]

theorem siftUpAux_multiset (d : Nat) :
    ∀ (f : Nat) (a : List Int) (i : Nat), i < a.length →
      ((siftUpAux d a i f : List Int) : Multiset Int) = (a : Multiset Int) := by
  intro f
  induction f with
  | zero => intro a i _; rfl
  | succ f ih =>
      intro a i hlen
      simp only [siftUpAux, parent_def]
      by_cases hc : 0 < i ∧ hget a ((i - 1) / d) < hget a i
      · rw [if_pos hc]
        have hpl : (i - 1) / d < a.length :=
          lt_trans (parent_lt i d hc.1) hlen
        rw [ih _ _ (by rw [length_swapL]; exact lt_trans (parent_lt i d hc.1) hlen)]
        exact swapL_multiset a i _ hlen hpl
      · rw [if_neg hc]

theorem siftUpAux_drop (d : Nat) :
    ∀ (f : Nat) (a : List Int) (i n : Nat), i < n →
      (siftUpAux d a i f).drop n = a.drop n := by
  intro f
  induction f with
  | zero => intro a i n _; rfl
  | succ f ih =>
      intro a i n hn
      simp only [siftUpAux, parent_def]
      by_cases hc : 0 < i ∧ hget a ((i - 1) / d) < hget a i
      · rw [if_pos hc, ih _ _ _ (lt_trans (parent_lt i d hc.1) hn)]
        exact drop_swapL a i _ n hn (lt_trans (parent_lt i d hc.1) hn)
      · rw [if_neg hc]

theorem siftUpAux_congr (d : Nat) :
    ∀ (f g : Nat) (a : List Int) (i : Nat), i ≤ f → i ≤ g →
      siftUpAux d a i f = siftUpAux d a i g := by
  intro f
  induction f with
  | zero =>
      intro g a i hf _
      have hi : i = 0 := by omega
      cases g with
      | zero => rfl
      | succ g =>
          simp only [siftUpAux]
          rw [if_neg (by simp [hi])]
  | succ f ih =>
      intro g a i hf hg
      cases g with
      | zero =>
          have hi : i = 0 := by omega
          simp only [siftUpAux]
          rw [if_neg (by simp [hi])]
      | succ g =>
          simp only [siftUpAux]
          by_cases hc : 0 < i ∧ hget a (parent i d) < hget a i
          · rw [if_pos hc, if_pos hc]
            have hplt := parent_lt i d hc.1
            exact ih g (swapL a i (parent i d)) (parent i d)
              (by simp only [parent_def] at *; omega)
              (by simp only [parent_def] at *; omega)
          · rw [if_neg hc, if_neg hc]

theorem siftUpAux_heapProp (size d : Nat) (hd : 1 ≤ d) :
    ∀ (f : Nat) (a : List Int) (i : Nat), size ≤ a.length → i < size →
      i ≤ f → upInv a size d i → heapProp (siftUpAux d a i f) size d := by
  intro f
  induction f with
  | zero =>
      intro a i _ _ hf hup p hp k hkd hk1 hcs
      have hi : i = 0 := by omega
      apply hup.1 p hp k hkd hk1 hcs
      rintro ⟨_, hc⟩
      omega
  | succ f ih =>
      intro a i hlen hi hf hup
      simp only [siftUpAux, parent_def]
      by_cases hc : 0 < i ∧ hget a ((i - 1) / d) < hget a i
      · rw [if_pos hc]
        obtain ⟨hi0, hlt⟩ := hc
        have hplt : (i - 1) / d < i := parent_lt i d hi0
        obtain ⟨ki, hki1, hkid, hkidec⟩ := exists_child_decomp i d (by omega) hd
        have hil : i < a.length := by omega
        have hpl : (i - 1) / d < a.length := by omega
        have sw_i : hget (swapL a i ((i - 1) / d)) i = hget a ((i - 1) / d) :=
          hget_swapL_left a i _ hil hpl
        have sw_p : hget (swapL a i ((i - 1) / d)) ((i - 1) / d) = hget a i :=
          hget_swapL_right a i _ hpl
        have sw_o : ∀ m, m ≠ i → m ≠ (i - 1) / d →
            hget (swapL a i ((i - 1) / d)) m = hget a m :=
          fun m h1 h2 => hget_swapL_of_ne a i _ m h1 h2
        apply ih _ _ (by rw [length_swapL]; exact hlen) (by omega) (by omega)
        constructor
        · intro p hp k hkd hk1 hcs hguard
          rcases eq_or_ne p ((i - 1) / d) with rfl | hppi
          · rcases eq_or_ne (d * ((i - 1) / d) + k) i with hci | hci
            · rw [hci, sw_i, sw_p]
              exact le_of_lt hlt
            · have hcp : d * ((i - 1) / d) + k ≠ (i - 1) / d :=
                ne_of_gt (child_gt ((i - 1) / d) k d hk1 hkd)
              rw [sw_o _ hci hcp, sw_p]
              have h1 := hup.1 ((i - 1) / d) hp k hkd hk1 hcs
                (fun hh => hci hh.2)
              exact le_trans h1 (le_of_lt hlt)
          · rcases eq_or_ne p i with rfl | hpi2
            · have h1 := child_gt p k d hk1 hkd
              have hcne_i : d * p + k ≠ p := ne_of_gt h1
              have hcne_p : d * p + k ≠ (p - 1) / d :=
                ne_of_gt (lt_trans hplt h1)
              rw [sw_o _ hcne_i hcne_p, sw_i]
              exact hup.2 (by omega) k hkd hk1 hcs
            · have hci : d * p + k ≠ i := by
                intro hceq
                have h1 := parent_of_child p k d hk1 hkd
                rw [hceq] at h1
                omega
              have hcp : d * p + k ≠ (i - 1) / d := by
                intro hceq
                have h1 := parent_of_child p k d hk1 hkd
                rw [hceq] at h1
                exact hguard ⟨h1.symm, hceq⟩
              rw [sw_o _ hci hcp, sw_o p hpi2 hppi]
              exact hup.1 p hp k hkd hk1 hcs (fun hh => hci hh.2)
        · intro hp0 k hkd hk1 hcs
          have hgplt : ((i - 1) / d - 1) / d < (i - 1) / d :=
            parent_lt _ d (Nat.pos_of_ne_zero hp0)
          have hgpne_i : ((i - 1) / d - 1) / d ≠ i :=
            ne_of_lt (lt_trans hgplt hplt)
          have hgpne_p : ((i - 1) / d - 1) / d ≠ (i - 1) / d := ne_of_lt hgplt
          rw [sw_o _ hgpne_i hgpne_p]
          obtain ⟨kp, hkp1, hkpd, hkpdec⟩ :=
            exists_child_decomp ((i - 1) / d) d (Nat.pos_of_ne_zero hp0) hd
          have hapi_gp : hget a ((i - 1) / d) ≤
              hget a (((i - 1) / d - 1) / d) := by
            have h1 := hup.1 (((i - 1) / d - 1) / d)
              (lt_trans (lt_trans hgplt hplt) hi) kp hkpd hkp1
              (by rw [← hkpdec]; exact lt_trans hplt hi)
              (fun hh => by
                have h2 := hh.2
                rw [← hkpdec] at h2
                exact absurd h2 (ne_of_lt hplt))
            rw [← hkpdec] at h1
            exact h1
          rcases eq_or_ne (d * ((i - 1) / d) + k) i with hci | hci
          · rw [hci, sw_i]
            exact hapi_gp
          · have hcp : d * ((i - 1) / d) + k ≠ (i - 1) / d :=
              ne_of_gt (child_gt ((i - 1) / d) k d hk1 hkd)
            rw [sw_o _ hci hcp]
            have h1 := hup.1 ((i - 1) / d) (lt_trans hplt hi) k hkd hk1 hcs
              (fun hh => hci hh.2)
            exact le_trans h1 hapi_gp
      · rw [if_neg hc]
        intro p hp k hkd hk1 hcs
        by_cases hguard : p = (i - 1) / d ∧ d * p + k = i
        · have hi0 : 0 < i := by
            have h1 := hguard.2
            have h2 := child_gt p k d hk1 hkd
            omega
          have h3 : ¬ hget a ((i - 1) / d) < hget a i := fun hbad => hc ⟨hi0, hbad⟩
          rw [hguard.2, hguard.1]
          exact not_lt.mp h3
        · exact hup.1 p hp k hkd hk1 hcs hguard

theorem siftUp_heapProp (a : List Int) (size d i : Nat) (hd : 1 ≤ d)
    (hlen : size ≤ a.length) (hi : i < size) (hup : upInv a size d i) :
    heapProp (siftUp a d i) size d :=
  siftUpAux_heapProp size d hd i a i hlen hi (le_refl i) hup

theorem siftUp_take (a : List Int) (d i n : Nat) (hin : i < n)
    (hlen : n ≤ a.length) :
    (((siftUp a d i).take n : List Int) : Multiset Int) =
      (a.take n : List Int) :=
  takeM_eq _ _ _ (siftUpAux_multiset d i a i (by omega))
    (siftUpAux_drop d i a i n hin)

theorem siftUp_length (a : List Int) (d i : Nat) :
    (siftUp a d i).length = a.length :=
  siftUpAux_length d i a i

/-- Under the heap property the sift-up loop exits immediately. -/
theorem siftUp_noop (a : List Int) (size d i : Nat) (hd : 1 ≤ d)
    (hp : heapProp a size d) (hi : i < size) : siftUp a d i = a := by
  unfold siftUp
  cases hi0 : i with
  | zero => rfl
  | succ n =>
      simp only [siftUpAux, parent_def]
      rw [if_neg]
      rintro ⟨_, hlt⟩
      obtain ⟨ki, hki1, hkid, hkidec⟩ :=
        exists_child_decomp (n + 1) d (by omega) hd
      have h1 := hp ((n + 1 - 1) / d) (lt_trans (parent_lt (n + 1) d (by omega))
        (by omega)) ki hkid hki1 (by rw [← hkidec]; omega)
      rw [← hkidec] at h1
      exact absurd hlt (not_lt.mpr h1)

/-! ### Operation-level lemmas -/

/-- Under the heap property the root holds the maximum valid element. -/
theorem root_max (a : List Int) (size d : Nat) (hp : heapProp a size d)
    (hd : 1 ≤ d) : ∀ j, j < size → hget a j ≤ hget a 0 := by
  intro j
  induction j using Nat.strong_induction_on with
  | _ j ih =>
      intro hj
      rcases Nat.eq_zero_or_pos j with rfl | hpos
      · exact le_refl _
      · obtain ⟨k, hk1, hkd, hdec⟩ := exists_child_decomp j d hpos hd
        have hpar_lt : (j - 1) / d < j := parent_lt j d hpos
        have h1 := hp ((j - 1) / d) (lt_trans hpar_lt hj) k hkd hk1
          (by rw [← hdec]; exact hj)
        rw [← hdec] at h1
        exact le_trans h1 (ih _ hpar_lt (lt_trans hpar_lt hj))

theorem mem_valid_le_root (a : List Int) (size d : Nat)
    (hp : heapProp a size d) (hd : 1 ≤ d) (x : Int) (hx : x ∈ a.take size) :
    x ≤ hget a 0 := by
  obtain ⟨j, hj1, _, hj3⟩ := mem_take_hget a size x hx
  rw [← hj3]
  exact root_max a size d hp hd j hj1

theorem heapExtractMax_some (h : Heap) (hs : 1 ≤ h.size) :
    heapExtractMax h = some (hget h.array 0,
      ⟨dmaxHeapify (h.array.set 0 (hget h.array (h.size - 1))) (h.size - 1)
        h.d 0, h.size - 1, h.d⟩) := by
  unfold heapExtractMax
  rw [if_neg (by omega)]

theorem extract_heapProp (h : Heap) (hlen : h.size ≤ h.array.length)
    (hp : heapProp h.array h.size h.d) :
    heapProp (dmaxHeapify (h.array.set 0 (hget h.array (h.size - 1)))
      (h.size - 1) h.d 0) (h.size - 1) h.d := by
  apply dmaxHeapify_heapProp _ _ _ _ (by rw [List.length_set]; omega)
  · intro p hpp hp0 k hkd hk1 hcs
    rw [hget_set_of_ne _ _ _ _ (by omega : (0:Nat) ≠ h.d * p + k),
      hget_set_of_ne _ _ _ _ (fun hh => hp0 hh.symm)]
    exact hp p (by omega) k hkd hk1 (by omega)
  · intro h0
    exact absurd rfl h0

theorem extract_multiset (h : Heap) (hs : 1 ≤ h.size)
    (hlen : h.size ≤ h.array.length) :
    (((dmaxHeapify (h.array.set 0 (hget h.array (h.size - 1))) (h.size - 1)
        h.d 0).take (h.size - 1) : List Int) : Multiset Int)
      + {hget h.array 0}
      = ((h.array.take h.size : List Int) : Multiset Int) := by
  rw [dmaxHeapify_take _ _ _ _ (by rw [List.length_set]; omega)]
  rcases Nat.lt_or_ge 1 h.size with hs2 | hs2
  · rw [take_set_comm _ _ _ _ (by omega)]
    have hms := multiset_set (h.array.take (h.size - 1)) 0
      (hget h.array (h.size - 1)) (by rw [List.length_take]; omega)
    rw [hget_take _ _ _ (by omega)] at hms
    rw [hms]
    have hts := take_succ_hget h.array (h.size - 1) (by omega)
    have hn1 : h.size - 1 + 1 = h.size := by omega
    rw [hn1] at hts
    rw [hts, ← Multiset.coe_singleton (hget h.array (h.size - 1)),
      Multiset.coe_add]
  · have hs1 : h.size = 1 := by omega
    have hts := take_succ_hget h.array 0 (by omega)
    rw [hs1]
    show ((((h.array.set 0 (hget h.array (1 - 1))).take (1 - 1) :
      List Int)) : Multiset Int) + {hget h.array 0}
      = ((h.array.take 1 : List Int) : Multiset Int)
    rw [show (1:Nat) - 1 = 0 from rfl, List.take_zero,
      show ((0:Nat) + 1) = 1 from rfl] at *
    rw [hts]
    simp

theorem insert_some (h : Heap) (key : Int) (hcap : h.size ≠ MAX_CAPACITY) :
    insert h key = some ⟨siftUp (h.array.set h.size key) h.d h.size,
      h.size + 1, h.d⟩ := by
  unfold insert
  rw [if_neg hcap]

theorem insert_upInv (h : Heap) (key : Int)
    (hp : heapProp h.array h.size h.d) :
    upInv (h.array.set h.size key) (h.size + 1) h.d h.size := by
  constructor
  · intro p hpp k hkd hk1 hcs hguard
    rcases eq_or_ne (h.d * p + k) h.size with hceq | hcne
    · exfalso
      apply hguard
      refine ⟨?_, hceq⟩
      have h1 := parent_of_child p k h.d hk1 hkd
      rw [hceq] at h1
      exact h1.symm
    · have hpne : p ≠ h.size := by
        intro hpeq
        have h1 := child_gt p k h.d hk1 hkd
        omega
      rw [hget_set_of_ne _ _ _ _ (fun hh => hcne hh.symm),
        hget_set_of_ne _ _ _ _ (fun hh => hpne hh.symm)]
      exact hp p (by omega) k hkd hk1 (by omega)
  · intro _ k hkd hk1 hcs
    exfalso
    have h1 := child_gt h.size k h.d hk1 hkd
    omega

theorem insert_heapProp (h : Heap) (key : Int) (hd : 1 ≤ h.d)
    (hp : heapProp h.array h.size h.d) (hlen : h.size < h.array.length) :
    heapProp (siftUp (h.array.set h.size key) h.d h.size) (h.size + 1) h.d :=
  siftUp_heapProp _ _ _ _ hd (by rw [List.length_set]; omega) (by omega)
    (insert_upInv h key hp)

theorem insert_multiset (h : Heap) (key : Int)
    (hlen : h.size < h.array.length) :
    (((siftUp (h.array.set h.size key) h.d h.size).take (h.size + 1) :
        List Int) : Multiset Int)
      = ((h.array.take h.size : List Int) : Multiset Int) + {key} := by
  rw [siftUp_take _ _ _ _ (by omega) (by rw [List.length_set]; omega)]
  have hts := take_succ_hget (h.array.set h.size key) h.size
    (by rw [List.length_set]; omega)
  rw [hts, take_set_ge _ _ _ _ (le_refl _), hget_set_self _ _ _ hlen,
    ← Multiset.coe_singleton key, Multiset.coe_add]

theorem increaseKey_some (h : Heap) (i : Nat) (key : Int)
    (hk : hget h.array i ≤ key) :
    increaseKey h i key =
      some ⟨siftUp (h.array.set i key) h.d i, h.size, h.d⟩ := by
  unfold increaseKey
  rw [if_neg (not_lt.mpr hk)]

theorem increaseKey_upInv (h : Heap) (i : Nat) (key : Int) (hd : 1 ≤ h.d)
    (hp : heapProp h.array h.size h.d) (hi : i < h.size)
    (hlen : h.size ≤ h.array.length) (hk : hget h.array i ≤ key) :
    upInv (h.array.set i key) h.size h.d i := by
  constructor
  · intro p hpp k hkd hk1 hcs hguard
    rcases eq_or_ne (h.d * p + k) i with hceq | hcne
    · exfalso
      apply hguard
      refine ⟨?_, hceq⟩
      have h1 := parent_of_child p k h.d hk1 hkd
      rw [hceq] at h1
      exact h1.symm
    · rw [hget_set_of_ne _ _ _ _ (fun hh => hcne hh.symm)]
      rcases eq_or_ne p i with rfl | hpi
      · rw [hget_set_self _ _ _ (by omega)]
        exact le_trans (hp p hpp k hkd hk1 hcs) hk
      · rw [hget_set_of_ne _ _ _ _ (fun hh => hpi hh.symm)]
        exact hp p hpp k hkd hk1 hcs
  · intro hi0 k hkd hk1 hcs
    have h1 := child_gt i k h.d hk1 hkd
    have hplt := parent_lt i h.d (Nat.pos_of_ne_zero hi0)
    rw [hget_set_of_ne _ _ _ _ (ne_of_lt h1),
      hget_set_of_ne _ _ _ _ (ne_of_gt hplt)]
    obtain ⟨ki, hki1, hkid, hkidec⟩ :=
      exists_child_decomp i h.d (Nat.pos_of_ne_zero hi0) hd
    have h2 := hp ((i - 1) / h.d) (lt_trans hplt hi) ki hkid hki1
      (by rw [← hkidec]; exact hi)
    rw [← hkidec] at h2
    exact le_trans (hp i hi k hkd hk1 hcs) h2

theorem increaseKey_heapProp (h : Heap) (i : Nat) (key : Int) (hd : 1 ≤ h.d)
    (hp : heapProp h.array h.size h.d) (hi : i < h.size)
    (hlen : h.size ≤ h.array.length) (hk : hget h.array i ≤ key) :
    heapProp (siftUp (h.array.set i key) h.d i) h.size h.d :=
  siftUp_heapProp _ _ _ _ hd (by rw [List.length_set]; omega) hi
    (increaseKey_upInv h i key hd hp hi hlen hk)

theorem increaseKey_multiset (h : Heap) (i : Nat) (key : Int)
    (hi : i < h.size) (hlen : h.size ≤ h.array.length) :
    (((siftUp (h.array.set i key) h.d i).take h.size : List Int) :
        Multiset Int) + {hget h.array i}
      = ((h.array.take h.size : List Int) : Multiset Int) + {key} := by
  rw [siftUp_take _ _ _ _ hi (by rw [List.length_set]; omega),
    take_set_comm _ _ _ _ hi]
  have hms := multiset_set (h.array.take h.size) i key
    (by rw [List.length_take]; omega)
  rw [hget_take _ _ _ hi] at hms
  exact hms

/-! ### Repeated extraction and repeated insertion -/

theorem extractN_spec : ∀ (n : Nat) (h : Heap), h.size = n → 1 ≤ h.d →
    h.size ≤ h.array.length → heapProp h.array h.size h.d →
    ((extractN h n : List Int) : Multiset Int) = validM h ∧
      (extractN h n).Pairwise (· ≥ ·) := by
  intro n
  induction n with
  | zero =>
      intro h hn _ _ _
      constructor
      · simp [extractN, validM, hn]
      · simp [extractN]
  | succ n ih =>
      intro h hn hd hlen hp
      have hs1 : 1 ≤ h.size := by omega
      have hsome := heapExtractMax_some h hs1
      have hext : extractN h (n + 1) = hget h.array 0 ::
          extractN ⟨dmaxHeapify (h.array.set 0 (hget h.array (h.size - 1)))
            (h.size - 1) h.d 0, h.size - 1, h.d⟩ n := by
        rw [show extractN h (n + 1) = (match heapExtractMax h with
          | none => []
          | some (m, h2) => m :: extractN h2 n) from rfl, hsome]
      have hlen2 : (dmaxHeapify (h.array.set 0 (hget h.array (h.size - 1)))
          (h.size - 1) h.d 0).length = h.array.length := by
        rw [dmaxHeapify_length, List.length_set]
      obtain ⟨ihm, ihp⟩ := ih
        ⟨dmaxHeapify (h.array.set 0 (hget h.array (h.size - 1)))
          (h.size - 1) h.d 0, h.size - 1, h.d⟩
        (by simp; omega) hd (by simp [hlen2]; omega)
        (extract_heapProp h hlen hp)
      have hsum : validM ⟨dmaxHeapify (h.array.set 0
            (hget h.array (h.size - 1))) (h.size - 1) h.d 0,
            h.size - 1, h.d⟩ + {hget h.array 0} = validM h :=
        extract_multiset h hs1 hlen
      constructor
      · rw [hext, ← Multiset.cons_coe, ihm, ← Multiset.singleton_add,
          add_comm, hsum]
      · rw [hext]
        refine List.pairwise_cons.mpr ⟨?_, ihp⟩
        intro x hx
        have hx1 : x ∈ validM h := by
          rw [← hsum]
          exact Multiset.mem_add.mpr (Or.inl (by
            rw [← ihm]; exact Multiset.mem_coe.mpr hx))
        exact mem_valid_le_root h.array h.size h.d hp hd x
          (Multiset.mem_coe.mp hx1)

theorem insertAll_spec : ∀ (keys : List Int) (h : Heap), 1 ≤ h.d →
    heapProp h.array h.size h.d →
    h.size + keys.length ≤ h.array.length →
    h.size + keys.length ≤ MAX_CAPACITY →
    ∃ hf, insertAll h keys = some hf ∧ hf.d = h.d ∧
      hf.size = h.size + keys.length ∧
      hf.array.length = h.array.length ∧
      heapProp hf.array hf.size hf.d ∧
      validM hf = validM h + (keys : Multiset Int) := by
  intro keys
  induction keys with
  | nil =>
      intro h hd hp _ _
      exact ⟨h, rfl, rfl, by simp, rfl, hp, by simp⟩
  | cons k ks ih =>
      intro h hd hp hlen hcap
      simp only [List.length_cons] at hlen hcap
      have hcapne : h.size ≠ MAX_CAPACITY := by
        unfold MAX_CAPACITY at *
        omega
      have hlt : h.size < h.array.length := by omega
      have hlen1 : (siftUp (h.array.set h.size k) h.d h.size).length =
          h.array.length := by
        rw [siftUp_length, List.length_set]
      obtain ⟨hf, h1, h2, h3, h4, h5, h6⟩ := ih
        ⟨siftUp (h.array.set h.size k) h.d h.size, h.size + 1, h.d⟩
        hd (insert_heapProp h k hd hp hlt)
        (by simp [hlen1]; omega) (by simp; omega)
      refine ⟨hf, ?_, h2, by simp at h3 ⊢; omega, by rw [h4]; exact hlen1, h5, ?_⟩
      · rw [show insertAll h (k :: ks) = (match insert h k with
          | none => none
          | some h2 => insertAll h2 ks) from rfl, insert_some h k hcapne]
        exact h1
      · rw [h6]
        have hv1 : validM ⟨siftUp (h.array.set h.size k) h.d h.size,
            h.size + 1, h.d⟩ = validM h + {k} := insert_multiset h k hlt
        rw [hv1, ← Multiset.cons_coe, ← Multiset.singleton_add, add_assoc]

/-! ### The claims -/

/-- C1: the claim states that `buildMaxHeap` — which heapifies indices
`size/d - 1` down to `0` — establishes the max-heap property for every
initial array and every degree `d ≥ 1`.  The code's own documentation says
it builds a valid max-heap, but the loop start index `size/d - 1` misses
internal nodes when `d ≥ 3`: on the array `[0,0,0,0,1]` with `size = 5`
and `d = 3` the loop runs only at index `0` (since `5/3 - 1 = 0`), node
`1` is never heapified although its child `4 = 3*1+1` is in range, and the
result still has `elements[1] = 0 < elements[4] = 1`, violating the
max-heap property. -/
theorem buildMaxHeap_misses_internal_node :
    (buildMaxHeap ⟨[0, 0, 0, 0, 1], 5, 3⟩).array = [0, 0, 0, 0, 1] ∧
    3 * 1 + 1 < 5 ∧
    hget (buildMaxHeap ⟨[0, 0, 0, 0, 1], 5, 3⟩).array 1 <
      hget (buildMaxHeap ⟨[0, 0, 0, 0, 1], 5, 3⟩).array (3 * 1 + 1) ∧
    heapProp (buildMaxHeap ⟨[0, 0, 0, 0, 1], 5, 3⟩).array 5 3 = False :=
  ⟨by decide, by decide, by decide, eq_false (by decide)⟩

/-- C2: on a heap satisfying the max-heap property with `d ≥ 1`, every
successful operation — insert (when below capacity), increaseKey (with an
in-range index and a key at least the current value), extractMax, and
deleteAt — yields a state that again satisfies the max-heap property. -/
theorem ops_preserve_heapProp (h : Heap) (key : Int) (i idx : Nat)
    (hd : 1 ≤ h.d) (hlen : h.size ≤ h.array.length)
    (hp : heapProp h.array h.size h.d) :
    (∀ h2, h.size < h.array.length → insert h key = some h2 →
      heapProp h2.array h2.size h2.d) ∧
    (∀ h2, i < h.size → hget h.array i ≤ key →
      increaseKey h i key = some h2 → heapProp h2.array h2.size h2.d) ∧
    (∀ m h2, heapExtractMax h = some (m, h2) →
      heapProp h2.array h2.size h2.d) ∧
    (∀ h2, delete h idx = some h2 → heapProp h2.array h2.size h2.d) := by
  refine ⟨?_, ?_, ?_, ?_⟩
  · intro h2 hlt hins
    have hc : h.size ≠ MAX_CAPACITY := by
      intro hc
      unfold insert at hins
      rw [if_pos hc] at hins
      exact Option.noConfusion hins
    rw [insert_some h key hc] at hins
    obtain rfl := Option.some.inj hins
    exact insert_heapProp h key hd hp hlt
  · intro h2 hi hk hik
    rw [increaseKey_some h i key hk] at hik
    obtain rfl := Option.some.inj hik
    exact increaseKey_heapProp h i key hd hp hi hlen hk
  · intro m h2 hex
    have hs1 : 1 ≤ h.size := by
      by_contra hs0
      unfold heapExtractMax at hex
      rw [if_pos (by omega)] at hex
      exact Option.noConfusion hex
    rw [heapExtractMax_some h hs1] at hex
    simp only [Option.some.injEq, Prod.mk.injEq] at hex
    obtain ⟨-, rfl⟩ := hex
    exact extract_heapProp h hlen hp
  · intro h2 hdel
    unfold delete at hdel
    by_cases hidx : h.size ≤ idx
    · rw [if_pos hidx] at hdel
      exact Option.noConfusion hdel
    · rw [if_neg hidx] at hdel
      push_neg at hidx
      by_cases hkk : hget h.array idx ≤ INT_MAX
      · rw [increaseKey_some h idx INT_MAX hkk, Option.some_bind] at hdel
        have hpm := increaseKey_heapProp h idx INT_MAX hd hp hidx hlen hkk
        have hlen2 : h.size ≤ (siftUp (h.array.set idx INT_MAX) h.d
            idx).length := by
          rw [siftUp_length, List.length_set]
          exact hlen
        rw [heapExtractMax_some ⟨siftUp (h.array.set idx INT_MAX) h.d idx,
          h.size, h.d⟩ (show 1 ≤ h.size by omega), Option.map_some'] at hdel
        obtain rfl := Option.some.inj hdel
        exact extract_heapProp
          ⟨siftUp (h.array.set idx INT_MAX) h.d idx, h.size, h.d⟩ hlen2 hpm
      · push_neg at hkk
        unfold increaseKey at hdel
        rw [if_pos hkk, Option.none_bind] at hdel
        exact Option.noConfusion hdel

/-- Witness for C2 at a concrete heap. -/
theorem ops_preserve_heapProp_witness :
    (1 ≤ (2:Nat) ∧ (3:Nat) ≤ 4 ∧ heapProp [9, 5, 7, 0] 3 2) ∧
    ((∀ h2, (3:Nat) < 4 → insert ⟨[9, 5, 7, 0], 3, 2⟩ 6 = some h2 →
        heapProp h2.array h2.size h2.d) ∧
      (∀ h2, (1:Nat) < 3 → hget [9, 5, 7, 0] 1 ≤ 6 →
        increaseKey ⟨[9, 5, 7, 0], 3, 2⟩ 1 6 = some h2 →
        heapProp h2.array h2.size h2.d) ∧
      (∀ m h2, heapExtractMax ⟨[9, 5, 7, 0], 3, 2⟩ = some (m, h2) →
        heapProp h2.array h2.size h2.d) ∧
      (∀ h2, delete ⟨[9, 5, 7, 0], 3, 2⟩ 1 = some h2 →
        heapProp h2.array h2.size h2.d)) :=
  ⟨⟨by decide, by decide, by decide⟩,
   ops_preserve_heapProp ⟨[9, 5, 7, 0], 3, 2⟩ 6 1 1 (by decide) (by decide)
     (by decide)⟩

/-- C3: extractMax fails with underflow exactly when `size = 0`;
otherwise, on a heap satisfying the max-heap property, it returns the root
value — which is the maximum of all valid elements — moves
`elements[size-1]` into slot `0`, decrements `size`, and restores the heap
property via heapifyDown at the root. -/
theorem extractMax_spec (h : Heap) :
    (heapExtractMax h = none ↔ h.size = 0) ∧
    (1 ≤ h.d → h.size ≤ h.array.length → heapProp h.array h.size h.d →
      1 ≤ h.size →
      heapExtractMax h = some (hget h.array 0,
        ⟨dmaxHeapify (h.array.set 0 (hget h.array (h.size - 1)))
          (h.size - 1) h.d 0, h.size - 1, h.d⟩) ∧
      (∀ j, j < h.size → hget h.array j ≤ hget h.array 0) ∧
      heapProp (dmaxHeapify (h.array.set 0 (hget h.array (h.size - 1)))
        (h.size - 1) h.d 0) (h.size - 1) h.d) := by
  constructor
  · constructor
    · intro hnone
      by_contra hs
      rw [heapExtractMax_some h (by omega)] at hnone
      exact Option.noConfusion hnone
    · intro hs
      unfold heapExtractMax
      rw [if_pos (by omega)]
  · intro hd hlen hp hs
    exact ⟨heapExtractMax_some h hs, root_max h.array h.size h.d hp hd,
      extract_heapProp h hlen hp⟩

/-- Witness for C3 at a concrete heap. -/
theorem extractMax_spec_witness :
    (heapExtractMax ⟨[9, 5, 7, 0], 3, 2⟩ = none ↔ (3:Nat) = 0) ∧
    (1 ≤ (2:Nat) ∧ (3:Nat) ≤ 4 ∧ heapProp [9, 5, 7, 0] 3 2 ∧ 1 ≤ (3:Nat)) ∧
    (heapExtractMax ⟨[9, 5, 7, 0], 3, 2⟩ = some (9, ⟨[7, 5, 7, 0], 2, 2⟩) ∧
      (∀ j, j < 3 → hget [9, 5, 7, 0] j ≤ hget [9, 5, 7, 0] 0) ∧
      heapProp [7, 5, 7, 0] 2 2) := by
  have h2 := (extractMax_spec ⟨[9, 5, 7, 0], 3, 2⟩).2 (by decide) (by decide)
    (by decide) (by decide)
  exact ⟨(extractMax_spec ⟨[9, 5, 7, 0], 3, 2⟩).1,
    ⟨by decide, by decide, by decide, by decide⟩,
    by decide, h2.2.1, h2.2.2⟩

/-- C4: on a heap of `n = size` elements satisfying the max-heap property
with `d ≥ 1`, calling extractMax `n` times yields exactly the multiset of
the original valid elements, in non-increasing order. -/
theorem extractAll_sorted_perm (h : Heap) (hd : 1 ≤ h.d)
    (hlen : h.size ≤ h.array.length) (hp : heapProp h.array h.size h.d) :
    ((extractN h h.size : List Int) : Multiset Int) = validM h ∧
      (extractN h h.size).Pairwise (· ≥ ·) :=
  extractN_spec h.size h rfl hd hlen hp

/-- Witness for C4 at a concrete heap. -/
theorem extractAll_sorted_perm_witness :
    (1 ≤ (2:Nat) ∧ (5:Nat) ≤ 5 ∧ heapProp [9, 5, 7, 1, 3] 5 2) ∧
    (((extractN ⟨[9, 5, 7, 1, 3], 5, 2⟩ 5 : List Int) : Multiset Int) =
        validM ⟨[9, 5, 7, 1, 3], 5, 2⟩ ∧
      (extractN ⟨[9, 5, 7, 1, 3], 5, 2⟩ 5).Pairwise (· ≥ ·)) :=
  ⟨⟨by decide, by decide, by decide⟩,
   extractAll_sorted_perm ⟨[9, 5, 7, 1, 3], 5, 2⟩ (by decide) (by decide)
     (by decide)⟩

/-- C5: for every degree `d ≥ 1` and every key sequence of length at most
the capacity, inserting the keys one by one into an empty heap and then
extracting until empty reproduces exactly the multiset of the keys, sorted
in non-increasing order. -/
theorem insert_extract_roundtrip (keys : List Int) (a0 : List Int) (d : Nat)
    (hd : 1 ≤ d) (hlen : keys.length ≤ a0.length)
    (hcap : keys.length ≤ MAX_CAPACITY) :
    ∃ hf, insertAll ⟨a0, 0, d⟩ keys = some hf ∧
      ((extractN hf hf.size : List Int) : Multiset Int) =
        (keys : Multiset Int) ∧
      (extractN hf hf.size).Pairwise (· ≥ ·) := by
  obtain ⟨hf, h1, h2, h3, h4, h5, h6⟩ := insertAll_spec keys ⟨a0, 0, d⟩ hd
    (fun p hpp => absurd hpp (Nat.not_lt_zero p))
    (by simpa using hlen) (by simpa using hcap)
  obtain ⟨hm, hsorted⟩ := extractN_spec hf.size hf rfl (by rw [h2]; exact hd)
    (by rw [h3, h4]; simpa using hlen) h5
  refine ⟨hf, h1, ?_, hsorted⟩
  rw [hm, h6]
  simp [validM]

/-- Witness for C5 at a concrete key sequence. -/
theorem insert_extract_roundtrip_witness :
    (1 ≤ (2:Nat) ∧ (3:Nat) ≤ 3 ∧ (3:Nat) ≤ MAX_CAPACITY) ∧
    (∃ hf, insertAll ⟨[0, 0, 0], 0, 2⟩ [2, 7, 5] = some hf ∧
      ((extractN hf hf.size : List Int) : Multiset Int) =
        ([2, 7, 5] : List Int) ∧
      (extractN hf hf.size).Pairwise (· ≥ ·)) :=
  ⟨⟨by decide, by decide, by decide⟩,
   insert_extract_roundtrip [2, 7, 5] [0, 0, 0] 2 (by decide) (by decide)
     (by decide)⟩

/-- C6: size bookkeeping with atomicity on error: insert increases size by
exactly one or fails (returning `none`, with no mutated state) exactly when
`size = MAX_CAPACITY`; extractMax decreases size by exactly one or fails
exactly when `size = 0`; deleteAt decreases size by exactly one, and (when
every valid element is at most `INT_MAX`, as every C `int` is) fails
exactly when the index is out of bounds. -/
theorem size_bookkeeping (h : Heap) (key : Int) (idx : Nat) :
    (insert h key = none ↔ h.size = MAX_CAPACITY) ∧
    (∀ h2, insert h key = some h2 → h2.size = h.size + 1) ∧
    (heapExtractMax h = none ↔ h.size = 0) ∧
    (∀ m h2, heapExtractMax h = some (m, h2) → h.size = h2.size + 1) ∧
    ((∀ j, j < h.size → hget h.array j ≤ INT_MAX) →
      (delete h idx = none ↔ h.size ≤ idx)) ∧
    (∀ h2, delete h idx = some h2 → h.size = h2.size + 1) := by
  refine ⟨?_, ?_, ?_, ?_, ?_, ?_⟩
  · unfold insert
    by_cases hc : h.size = MAX_CAPACITY
    · rw [if_pos hc]
      exact ⟨fun _ => hc, fun _ => rfl⟩
    · rw [if_neg hc]
      exact ⟨fun hh => Option.noConfusion hh, fun hh => absurd hh hc⟩
  · intro h2 hins
    by_cases hc : h.size = MAX_CAPACITY
    · unfold insert at hins
      rw [if_pos hc] at hins
      exact Option.noConfusion hins
    · rw [insert_some h key hc] at hins
      obtain rfl := Option.some.inj hins
      rfl
  · unfold heapExtractMax
    by_cases hc : h.size < 1
    · rw [if_pos hc]
      exact ⟨fun _ => by omega, fun _ => rfl⟩
    · rw [if_neg hc]
      exact ⟨fun hh => Option.noConfusion hh, fun hh => absurd hh (by omega)⟩
  · intro m h2 hex
    have hs1 : 1 ≤ h.size := by
      by_contra hs0
      unfold heapExtractMax at hex
      rw [if_pos (by omega)] at hex
      exact Option.noConfusion hex
    rw [heapExtractMax_some h hs1] at hex
    simp only [Option.some.injEq, Prod.mk.injEq] at hex
    obtain ⟨-, rfl⟩ := hex
    show h.size = h.size - 1 + 1
    omega
  · intro hbound
    unfold delete
    by_cases hidx : h.size ≤ idx
    · rw [if_pos hidx]
      exact ⟨fun _ => hidx, fun _ => rfl⟩
    · rw [if_neg hidx]
      push_neg at hidx
      have hkk : hget h.array idx ≤ INT_MAX := hbound idx hidx
      rw [increaseKey_some h idx INT_MAX hkk, Option.some_bind,
        heapExtractMax_some ⟨siftUp (h.array.set idx INT_MAX) h.d idx,
          h.size, h.d⟩ (show 1 ≤ h.size by omega), Option.map_some']
      exact ⟨fun hh => Option.noConfusion hh, fun hh => absurd hh (by omega)⟩
  · intro h2 hdel
    unfold delete at hdel
    by_cases hidx : h.size ≤ idx
    · rw [if_pos hidx] at hdel
      exact Option.noConfusion hdel
    · rw [if_neg hidx] at hdel
      push_neg at hidx
      by_cases hkk : hget h.array idx ≤ INT_MAX
      · rw [increaseKey_some h idx INT_MAX hkk, Option.some_bind,
          heapExtractMax_some ⟨siftUp (h.array.set idx INT_MAX) h.d idx,
            h.size, h.d⟩ (show 1 ≤ h.size by omega),
          Option.map_some'] at hdel
        obtain rfl := Option.some.inj hdel
        show h.size = h.size - 1 + 1
        omega
      · push_neg at hkk
        unfold increaseKey at hdel
        rw [if_pos hkk, Option.none_bind] at hdel
        exact Option.noConfusion hdel

/-- Witness for C6 at a concrete heap: the last conjunct group has the
representability hypothesis discharged concretely. -/
theorem size_bookkeeping_witness :
    (∀ j, j < (3:Nat) → hget [9, 5, 7, 0] j ≤ INT_MAX) ∧
    ((insert ⟨[9, 5, 7, 0], 3, 2⟩ 6 = none ↔ (3:Nat) = MAX_CAPACITY) ∧
      (∀ h2, insert ⟨[9, 5, 7, 0], 3, 2⟩ 6 = some h2 → h2.size = 3 + 1) ∧
      (heapExtractMax ⟨[9, 5, 7, 0], 3, 2⟩ = none ↔ (3:Nat) = 0) ∧
      (∀ m h2, heapExtractMax ⟨[9, 5, 7, 0], 3, 2⟩ = some (m, h2) →
        (3:Nat) = h2.size + 1) ∧
      ((∀ j, j < (3:Nat) → hget [9, 5, 7, 0] j ≤ INT_MAX) →
        (delete ⟨[9, 5, 7, 0], 3, 2⟩ 1 = none ↔ (3:Nat) ≤ 1)) ∧
      (∀ h2, delete ⟨[9, 5, 7, 0], 3, 2⟩ 1 = some h2 →
        (3:Nat) = h2.size + 1)) :=
  ⟨by decide, size_bookkeeping ⟨[9, 5, 7, 0], 3, 2⟩ 6 1⟩

/-- C7: on a heap satisfying the max-heap property with `d ≥ 1`, all valid
elements at most `INT_MAX` (true of C ints), and `index < size`,
deleteAt — increaseKey to `INT_MAX` followed by extractMax — removes
exactly one occurrence of `elements[index]` from the valid multiset,
restores the heap property, and decrements size by one; it fails with
index-out-of-bounds exactly when `index ≥ size`. -/
theorem delete_spec (h : Heap) (idx : Nat) (hd : 1 ≤ h.d)
    (hlen : h.size ≤ h.array.length) (hp : heapProp h.array h.size h.d)
    (hidx : idx < h.size)
    (hbound : ∀ j, j < h.size → hget h.array j ≤ INT_MAX) :
    (∀ j, h.size ≤ j → delete h j = none) ∧
    ∃ h2, delete h idx = some h2 ∧ h2.size = h.size - 1 ∧
      heapProp h2.array h2.size h2.d ∧
      validM h2 + {hget h.array idx} = validM h := by
  have hkk : hget h.array idx ≤ INT_MAX := hbound idx hidx
  have hlen2 : h.size ≤ (siftUp (h.array.set idx INT_MAX) h.d idx).length := by
    rw [siftUp_length, List.length_set]
    exact hlen
  have hp2 := increaseKey_heapProp h idx INT_MAX hd hp hidx hlen hkk
  have hm2 := increaseKey_multiset h idx INT_MAX hidx hlen
  -- the root of the intermediate heap is exactly INT_MAX
  have hroot_le : hget (siftUp (h.array.set idx INT_MAX) h.d idx) 0 ≤
      INT_MAX := by
    have hrmem : hget (siftUp (h.array.set idx INT_MAX) h.d idx) 0 ∈
        (((siftUp (h.array.set idx INT_MAX) h.d idx).take h.size :
          List Int) : Multiset Int) :=
      Multiset.mem_coe.mpr (hget_mem_take _ 0 h.size (by omega) (by omega))
    have hrmem2 : hget (siftUp (h.array.set idx INT_MAX) h.d idx) 0 ∈
        (((siftUp (h.array.set idx INT_MAX) h.d idx).take h.size :
          List Int) : Multiset Int) + {hget h.array idx} :=
      Multiset.mem_add.mpr (Or.inl hrmem)
    rw [hm2] at hrmem2
    rcases Multiset.mem_add.mp hrmem2 with hr1 | hr2
    · obtain ⟨j, hj1, _, hj3⟩ :=
        mem_take_hget h.array h.size _ (Multiset.mem_coe.mp hr1)
      rw [← hj3]
      exact hbound j hj1
    · exact le_of_eq (Multiset.mem_singleton.mp hr2)
  have hIMmem : INT_MAX ∈
      (((siftUp (h.array.set idx INT_MAX) h.d idx).take h.size :
        List Int) : Multiset Int) := by
    have hcnt := congrArg (Multiset.count INT_MAX) hm2
    rw [Multiset.count_add, Multiset.count_add, Multiset.count_singleton,
      Multiset.count_singleton, if_pos rfl] at hcnt
    rcases eq_or_ne (hget h.array idx) INT_MAX with hx | hx
    · have hxmem : hget h.array idx ∈ h.array.take h.size :=
        hget_mem_take h.array idx h.size hidx (by omega)
      rw [hx] at hxmem
      have hxm : (0:Nat) < Multiset.count INT_MAX
          ((h.array.take h.size : List Int) : Multiset Int) :=
        Multiset.count_pos.mpr (Multiset.mem_coe.mpr hxmem)
      rw [if_pos hx.symm] at hcnt
      exact Multiset.count_pos.mp (by omega)
    · rw [if_neg (fun hh => hx hh.symm)] at hcnt
      exact Multiset.count_pos.mp (by omega)
  obtain ⟨j, hj1, _, hj3⟩ := mem_take_hget _ h.size INT_MAX
    (Multiset.mem_coe.mp hIMmem)
  have hroot_ge : INT_MAX ≤
      hget (siftUp (h.array.set idx INT_MAX) h.d idx) 0 :=
    calc INT_MAX
        = hget (siftUp (h.array.set idx INT_MAX) h.d idx) j := hj3.symm
      _ ≤ hget (siftUp (h.array.set idx INT_MAX) h.d idx) 0 :=
          root_max _ h.size h.d hp2 hd j hj1
  have hroot_eq : hget (siftUp (h.array.set idx INT_MAX) h.d idx) 0 =
      INT_MAX := le_antisymm hroot_le hroot_ge
  constructor
  · intro j2 hj2
    unfold delete
    rw [if_pos hj2]
  · refine ⟨⟨dmaxHeapify ((siftUp (h.array.set idx INT_MAX) h.d idx).set 0
        (hget (siftUp (h.array.set idx INT_MAX) h.d idx) (h.size - 1)))
        (h.size - 1) h.d 0, h.size - 1, h.d⟩, ?_, rfl, ?_, ?_⟩
    · unfold delete
      rw [if_neg (by omega), increaseKey_some h idx INT_MAX hkk,
        Option.some_bind,
        heapExtractMax_some ⟨siftUp (h.array.set idx INT_MAX) h.d idx,
          h.size, h.d⟩ (show 1 ≤ h.size by omega), Option.map_some']
    · exact extract_heapProp
        ⟨siftUp (h.array.set idx INT_MAX) h.d idx, h.size, h.d⟩ hlen2 hp2
    · have hm3 := extract_multiset
        ⟨siftUp (h.array.set idx INT_MAX) h.d idx, h.size, h.d⟩
        (show 1 ≤ h.size by omega) hlen2
      rw [show (⟨siftUp (h.array.set idx INT_MAX) h.d idx, h.size, h.d⟩ :
        Heap).array = siftUp (h.array.set idx INT_MAX) h.d idx from rfl,
        show (⟨siftUp (h.array.set idx INT_MAX) h.d idx, h.size, h.d⟩ :
        Heap).size = h.size from rfl, hroot_eq] at hm3
      show (((dmaxHeapify ((siftUp (h.array.set idx INT_MAX) h.d idx).set 0
          (hget (siftUp (h.array.set idx INT_MAX) h.d idx) (h.size - 1)))
          (h.size - 1) h.d 0).take (h.size - 1) : List Int) : Multiset Int)
          + {hget h.array idx}
        = ((h.array.take h.size : List Int) : Multiset Int)
      have hfin := congrArg (· + ({hget h.array idx} : Multiset Int)) hm3
      simp only at hfin
      rw [add_right_comm] at hfin
      rw [hm2] at hfin
      exact add_right_cancel hfin

/-- Witness for C7 at a concrete heap: deleting index 2 (value 7). -/
theorem delete_spec_witness :
    (1 ≤ (2:Nat) ∧ (3:Nat) ≤ 4 ∧ heapProp [9, 5, 7, 0] 3 2 ∧ (2:Nat) < 3 ∧
      (∀ j, j < (3:Nat) → hget [9, 5, 7, 0] j ≤ INT_MAX)) ∧
    ((∀ j, (3:Nat) ≤ j → delete ⟨[9, 5, 7, 0], 3, 2⟩ j = none) ∧
      ∃ h2, delete ⟨[9, 5, 7, 0], 3, 2⟩ 2 = some h2 ∧ h2.size = 3 - 1 ∧
        heapProp h2.array h2.size h2.d ∧
        validM h2 + {hget [9, 5, 7, 0] 2} = validM ⟨[9, 5, 7, 0], 3, 2⟩) :=
  ⟨⟨by decide, by decide, by decide, by decide, by decide⟩,
   delete_spec ⟨[9, 5, 7, 0], 3, 2⟩ 2 (by decide) (by decide) (by decide)
     (by decide) (by decide)⟩

/-- C8: on a heap satisfying the max-heap property with `d ≥ 1` and
`i < size`, increaseKey fails with InvalidKey exactly when
`key < elements[i]`; with `key = elements[i]` it is accepted and completes
as a no-op, leaving the entire heap state unchanged. -/
theorem increaseKey_reject_noop (h : Heap) (i : Nat) (key : Int)
    (hd : 1 ≤ h.d) (hlen : h.size ≤ h.array.length) (hi : i < h.size)
    (hp : heapProp h.array h.size h.d) :
    (increaseKey h i key = none ↔ key < hget h.array i) ∧
    (key = hget h.array i → increaseKey h i key = some h) := by
  constructor
  · unfold increaseKey
    by_cases hc : key < hget h.array i
    · rw [if_pos hc]
      exact ⟨fun _ => hc, fun _ => rfl⟩
    · rw [if_neg hc]
      exact ⟨fun hh => Option.noConfusion hh, fun hh => absurd hh hc⟩
  · intro hkey
    rw [increaseKey_some h i key (le_of_eq hkey.symm)]
    have hset : h.array.set i key = h.array := by
      rw [hkey]
      exact set_hget_self h.array i (by omega)
    rw [hset, siftUp_noop h.array h.size h.d i hd hp hi]

/-- Witness for C8 at a concrete heap: key equal to the current value. -/
theorem increaseKey_reject_noop_witness :
    (1 ≤ (2:Nat) ∧ (3:Nat) ≤ 4 ∧ (1:Nat) < 3 ∧ heapProp [9, 5, 7, 0] 3 2) ∧
    ((increaseKey ⟨[9, 5, 7, 0], 3, 2⟩ 1 5 = none ↔
        (5:Int) < hget [9, 5, 7, 0] 1) ∧
      ((5:Int) = hget [9, 5, 7, 0] 1 →
        increaseKey ⟨[9, 5, 7, 0], 3, 2⟩ 1 5 = some ⟨[9, 5, 7, 0], 3, 2⟩)) :=
  ⟨⟨by decide, by decide, by decide, by decide⟩,
   increaseKey_reject_noop ⟨[9, 5, 7, 0], 3, 2⟩ 1 5 (by decide) (by decide)
     (by decide) (by decide)⟩

/-- C9: whenever some in-range child of position `i` is strictly greater
than `elements[i]`, the child scan (strict `>` keeping the first maximum)
selects the leftmost in-range child attaining the maximum child value, and
the `dmaxHeapify` iteration swaps exactly that child into position `i` and
descends there. -/
theorem heapify_leftmost_max_child (a : List Int) (size d i : Nat)
    (hex : ∃ k, 1 ≤ k ∧ k ≤ d ∧ d * i + k < size ∧
      hget a i < hget a (d * i + k)) :
    ∃ k0, 1 ≤ k0 ∧ k0 ≤ d ∧ findLargest a size d i = d * i + k0 ∧
      d * i + k0 < size ∧ hget a i < hget a (d * i + k0) ∧
      (∀ k, 1 ≤ k → k ≤ d → d * i + k < size →
        hget a (d * i + k) ≤ hget a (d * i + k0)) ∧
      (∀ k, 1 ≤ k → k ≤ d → d * i + k < size → d * i + k < d * i + k0 →
        hget a (d * i + k) < hget a (d * i + k0)) ∧
      dmaxHeapify a size d i =
        dmaxHeapify (swapL a i (d * i + k0)) size d (d * i + k0) := by
  obtain ⟨k, hk1, hkd, hks, hkv⟩ := hex
  have hLne : findLargest a size d i ≠ i := by
    intro hL
    have h1 := (findLargest_dominates a size d i).2 k hk1 hkd hks
    rw [hL] at h1
    exact absurd hkv (not_lt.mpr h1)
  rcases findLargest_cases a size d i with hL |
    ⟨hiL, hLs, hval, k0, hk01, hk0d, hLc⟩
  · exact absurd hL hLne
  · refine ⟨k0, hk01, hk0d, hLc, by omega, ?_, ?_, ?_, ?_⟩
    · rw [← hLc]
      exact hval
    · intro k2 h1 h2 h3
      have h4 := (findLargest_dominates a size d i).2 k2 h1 h2 h3
      rwa [hLc] at h4
    · intro k2 h1 h2 h3 h4
      have h5 := findLargest_leftmost a size d i k2 h1 h2 h3
        (by rw [hLc]; exact h4)
      rwa [hLc] at h5
    · have h6 := dmaxHeapify_step a size d i hLne
      rwa [hLc] at h6

/-- Witness for C9: a scan with a tie among maximal children picks the
leftmost one. -/
theorem heapify_leftmost_max_child_witness :
    (∃ k, 1 ≤ k ∧ k ≤ 2 ∧ 2 * 0 + k < 3 ∧
      hget [1, 5, 5] 0 < hget [1, 5, 5] (2 * 0 + k)) ∧
    (∃ k0, 1 ≤ k0 ∧ k0 ≤ 2 ∧ findLargest [1, 5, 5] 3 2 0 = 2 * 0 + k0 ∧
      2 * 0 + k0 < 3 ∧ hget [1, 5, 5] 0 < hget [1, 5, 5] (2 * 0 + k0) ∧
      (∀ k, 1 ≤ k → k ≤ 2 → 2 * 0 + k < 3 →
        hget [1, 5, 5] (2 * 0 + k) ≤ hget [1, 5, 5] (2 * 0 + k0)) ∧
      (∀ k, 1 ≤ k → k ≤ 2 → 2 * 0 + k < 3 → 2 * 0 + k < 2 * 0 + k0 →
        hget [1, 5, 5] (2 * 0 + k) < hget [1, 5, 5] (2 * 0 + k0)) ∧
      dmaxHeapify [1, 5, 5] 3 2 0 =
        dmaxHeapify (swapL [1, 5, 5] 0 (2 * 0 + k0)) 3 2 (2 * 0 + k0)) :=
  ⟨⟨1, by decide, by decide, by decide, by decide⟩,
   heapify_leftmost_max_child [1, 5, 5] 3 2 0
     ⟨1, by decide, by decide, by decide, by decide⟩⟩

/-- C10: the termination measures of all loops: every child index strictly
exceeds its parent's index, `parent(i) < i` for `i ≥ 1`, the heapifyDown
descent index strictly increases and stays below `size`, and consequently
an iteration budget of `size - i` suffices for the heapifyDown loop and a
budget of `i` suffices for the sift-up loops (the budgeted loop bodies
agree with the operations used by the heap). -/
theorem loops_terminate :
    (∀ i k d : Nat, 1 ≤ k → k ≤ d → i < child i k d) ∧
    (∀ i d : Nat, 1 ≤ i → parent i d < i) ∧
    (∀ (a : List Int) (size d i : Nat), findLargest a size d i ≠ i →
      i < findLargest a size d i ∧ findLargest a size d i < size) ∧
    (∀ (a : List Int) (size d i f : Nat), size - i ≤ f →
      heapifyAux size d a i f = dmaxHeapify a size d i) ∧
    (∀ (a : List Int) (d i f : Nat), i ≤ f →
      siftUpAux d a i f = siftUp a d i) := by
  refine ⟨?_, ?_, ?_, ?_, ?_⟩
  · intro i k d h1 h2
    simpa using child_gt i k d h1 h2
  · intro i d h1
    simpa using parent_lt i d h1
  · intro a size d i hne
    rcases findLargest_cases a size d i with hL | ⟨h1, h2, _, _⟩
    · exact absurd hL hne
    · exact ⟨h1, h2⟩
  · intro a size d i f hf
    exact heapifyAux_congr size d f size a i hf (by omega)
  · intro a d i f hf
    exact siftUpAux_congr d f i a i hf (le_refl i)

/-- Witness for C10 at concrete indices, degrees and arrays. -/
theorem loops_terminate_witness :
    (1 ≤ (1:Nat) ∧ (1:Nat) ≤ 2 ∧ 3 < child 3 1 2) ∧
    (1 ≤ (5:Nat) ∧ parent 5 2 < 5) ∧
    (findLargest [1, 5, 5] 3 2 0 ≠ 0 ∧ 0 < findLargest [1, 5, 5] 3 2 0 ∧
      findLargest [1, 5, 5] 3 2 0 < 3) ∧
    ((3:Nat) - 0 ≤ 3 ∧
      heapifyAux 3 2 [1, 5, 5] 0 3 = dmaxHeapify [1, 5, 5] 3 2 0) ∧
    ((2:Nat) ≤ 2 ∧ siftUpAux 2 [1, 5, 9] 2 2 = siftUp [1, 5, 9] 2 2) :=
  ⟨⟨by decide, by decide, loops_terminate.1 3 1 2 (by decide) (by decide)⟩,
   ⟨by decide, loops_terminate.2.1 5 2 (by decide)⟩,
   ⟨by decide, loops_terminate.2.2.1 [1, 5, 5] 3 2 0 (by decide)⟩,
   ⟨by decide, loops_terminate.2.2.2.1 [1, 5, 5] 3 2 0 3 (by decide)⟩,
   ⟨by decide, loops_terminate.2.2.2.2 [1, 5, 9] 2 2 2 (by decide)⟩⟩

end DHeap
